import Mathlib

/-!
Shallow embedding of the fact-acquisition pipeline of
scottzero/facts-that-arent-fun-at-all.  The repository holds three
JavaScript variants of the same app: `src/App.js` (the rate-limited
variant), `src/unnamed/part_000` (the `MAX_RETRIES` backoff-with-jitter
variant) and `src/unnamed/part_001` (the plain variant, whose pipeline is
line-for-line that of `src/App.js` without the rate limiter).

A network attempt (one `fetchJson` call together with the `toText`
extraction) is modelled by an oracle `Nat → Option String` indexed by the
attempt number: `none` stands for a thrown transport / HTTP-status / JSON
error or a missing `text` field, `some t` for an extracted text `t`.
`Math.random()` draws are modelled by rationals supplied from outside;
their contract `0 ≤ r < 1` appears as a hypothesis where it matters.
Timestamps (epoch milliseconds) are integers.
-/

namespace FunFacts

/-- The JavaScript `String.prototype.toLowerCase()` on the strings this app
handles: lowercase each character.  (Defined over the character list so the
kernel can evaluate it; `String.toLower` is the same map.) -/
def jsToLower (s : String) : String := ⟨s.data.map Char.toLower⟩

/-- The success guard both retry loops apply to one attempt: an extracted
text counts only when it is a non-empty string.  This is the
`if (!t) throw new Error("bad data")` of `src/App.js` / `src/unnamed/part_001`
and the `if (!text || typeof text !== "string") throw` of
`src/unnamed/part_000`, collapsed with the fetch itself into one oracle
answer. -/
def attemptOk : Option String → Option String
  | none => none
  | some t => if t = "" then none else some t

/-- Loop body of `fetchWithRetry` in `src/App.js` lines 26-42 (identical in
`src/unnamed/part_001` lines 25-41): `attempt` starts at 0, `delay` at 400,
the loop runs while `attempt < 3`; a success returns `t.toLowerCase()` at
once; a failure sleeps `delay`, doubles it and increments `attempt` — note
the sleep happens after every failure, the last one included.  The fuel
argument is the number of loop iterations still allowed (`3 - attempt`).
Result: (returned value, number of fetch attempts performed, the sleeps
performed, in order, in milliseconds). -/
def appRetryAux (oracle : Nat → Option String) :
    Nat → Nat → Nat → Option String × Nat × List Nat
  | _, _, 0 => (none, 0, [])
  | attempt, delay, fuel + 1 =>
    match attemptOk (oracle attempt) with
    | some t => (some (jsToLower t), 1, [])
    | none =>
      let r := appRetryAux oracle (attempt + 1) (delay * 2) fuel
      (r.1, r.2.1 + 1, delay :: r.2.2)

/-- `fetchWithRetry` of `src/App.js` / `src/unnamed/part_001`: at most 3
attempts, initial delay 400 ms. -/
def appFetchWithRetry (oracle : Nat → Option String) : Option String × Nat × List Nat :=
  appRetryAux oracle 0 400 3

/-- `MAX_RETRIES` of `src/unnamed/part_000` line 40: total attempts = 1 + retries. -/
def MAX_RETRIES : Nat := 3

/-- `BASE_DELAY_MS` of `src/unnamed/part_000` line 41. -/
def BASE_DELAY_MS : ℚ := 400

/-- `JITTER` of `src/unnamed/part_000` line 42: ±25% jitter. -/
def JITTER : ℚ := 1 / 4

/-- The backoff delay `src/unnamed/part_000` lines 82-84 computes before
retrying after failed attempt number `attempt`:
`base = BASE_DELAY_MS * 2^attempt`, `jitter = base * (random()*2*JITTER - JITTER)`,
`delay = Math.max(100, base + jitter)`.  `rand attempt` is the `Math.random()` draw of that attempt. -/
def p0delay (rand : Nat → ℚ) (attempt : Nat) : ℚ :=
  let base := BASE_DELAY_MS * 2 ^ attempt
  let jitter := base * (rand attempt * 2 * JITTER - JITTER)
  max 100 (base + jitter)

/-- Loop body of `fetchWithRetry` in `src/unnamed/part_000` lines 69-92:
the loop runs while `attempt <= MAX_RETRIES`; a success returns the text
as-is (no lowercasing); on a failure with `attempt === MAX_RETRIES` the
loop breaks without sleeping and the function returns `null`; otherwise it
sleeps the jittered exponential delay and retries.  The fuel argument is
the number of iterations still allowed (`MAX_RETRIES + 1 - attempt`).
Result: (returned value, attempts performed, sleeps performed in ms). -/
def p0RetryAux (oracle : Nat → Option String) (rand : Nat → ℚ) :
    Nat → Nat → Option String × Nat × List ℚ
  | _, 0 => (none, 0, [])
  | attempt, fuel + 1 =>
    match attemptOk (oracle attempt) with
    | some t => (some t, 1, [])
    | none =>
      if attempt = MAX_RETRIES then (none, 1, [])
      else
        let r := p0RetryAux oracle rand (attempt + 1) fuel
        (r.1, r.2.1 + 1, p0delay rand attempt :: r.2.2)

/-- `fetchWithRetry` of `src/unnamed/part_000`. -/
def p0FetchWithRetry (oracle : Nat → Option String) (rand : Nat → ℚ) :
    Option String × Nat × List ℚ :=
  p0RetryAux oracle rand 0 (MAX_RETRIES + 1)

/-- `FALLBACK` of `src/App.js` lines 13-19 / `src/unnamed/part_001` lines 12-18
(the `src/App.js` copy is byte-wise the same list through a mangled UTF-8
encoding of the apostrophe). -/
def FALLBACK : List String :=
  [ "honey never spoils.",
    "octopuses have three hearts.",
    "sharks existed before trees.",
    "wombat poop is cube-shaped.",
    "bananas are berries; strawberries aren’t." ]

/-- `FALLBACK[Math.floor(Math.random() * FALLBACK.length)].toLowerCase()`
of `src/App.js` line 121, with `r` the `Math.random()` draw. -/
def fallbackPick (r : ℚ) : String :=
  jsToLower (FALLBACK.getD (Int.floor (r * (FALLBACK.length : ℚ))).toNat "")

/-- The `if (!f) f = await fetchWithRetry(...)` / `if (!f) f = FALLBACK[...]`
tail of `getNextFact` (`src/App.js` lines 119-121): `direct` is the result
of the direct `fetchWithRetry` call, `r` the fallback `Math.random()` draw. -/
def directOrFallback (direct : Option String) (r : ℚ) : String :=
  match direct with
  | some t => if t = "" then fallbackPick r else t
  | none => fallbackPick r

/-- `cacheRef.current` (FIFO queue of upcoming facts) together with
`seenRef.current` (the shown-text set of the session, a JS `Set` modelled by a
list with membership, grown by consing). -/
structure CacheState where
  queue : List String
  seen : List String
  deriving Repr, DecidableEq

/-- `CACHE_TARGET_SIZE` (`src/unnamed/part_000` line 54; the literal 4 of
`src/App.js` line 84). -/
def CACHE_TARGET_SIZE : Nat := 4

/-- The `while (cacheRef.current.length < 4)` loop of `primeCache`
(`src/App.js` lines 82-95, `src/unnamed/part_000` lines 106-120,
`src/unnamed/part_001` lines 49-58).  `rs` lists the successive
`fetchWithRetry` results the loop would observe: the loop checks the
length bound before each fetch, stops on a `null` result, pushes a fresh
fact to the back of the queue and into the seen-set, and silently skips a
fact already seen. -/
def primeCacheGo : List (Option String) → CacheState → CacheState
  | [], s => s
  | r :: rs, s =>
    if s.queue.length < CACHE_TARGET_SIZE then
      match r with
      | none => s
      | some f =>
        if f ∈ s.seen then primeCacheGo rs s
        else primeCacheGo rs ⟨s.queue ++ [f], f :: s.seen⟩
    else s

/-- `getNextFact` of `src/App.js` lines 115-127 (`nextFact` of
`src/unnamed/part_001` lines 60-72): shift the cache queue; on a falsy
head (absent, or the unreachable empty string) fall through to a direct
`fetchWithRetry` whose result is `direct`, then to the fallback corpus;
publish the fact and trigger the background `primeCache` on what is left.
Result: (displayed fact, whether the direct network fetch for the
displayed fact was invoked, the cache state after the background refill). -/
def getNextFact (s : CacheState) (direct : Option String) (r : ℚ)
    (refill : List (Option String)) : String × Bool × CacheState :=
  match s.queue with
  | [] => (directOrFallback direct r, true, primeCacheGo refill ⟨[], s.seen⟩)
  | f :: rest =>
    if f = "" then (directOrFallback direct r, true, primeCacheGo refill ⟨rest, s.seen⟩)
    else (f, false, primeCacheGo refill ⟨rest, s.seen⟩)

/-- One mutation of the cache state of a session: a background refill with its
observed fetch results, or a `getNextFact` with its direct-fetch result,
fallback draw and refill results. -/
inductive CacheOp where
  | refill (rs : List (Option String))
  | getNext (direct : Option String) (r : ℚ) (rs : List (Option String))

/-- Apply one operation to the cache state. -/
def applyOp (s : CacheState) : CacheOp → CacheState
  | .refill rs => primeCacheGo rs s
  | .getNext d r rs => (getNextFact s d r rs).2.2

/-- The state at app start: empty queue, empty seen-set. -/
def initialCache : CacheState := ⟨[], []⟩

/-- The cache state after a sequence of operations of one session. -/
def runOps (ops : List CacheOp) : CacheState := ops.foldl applyOp initialCache

/-- `MAX_PER_MINUTE` of `src/App.js` line 45. -/
def MAX_PER_MINUTE : Nat := 5

/-- `WINDOW_MS` of `src/App.js` line 46. -/
def WINDOW_MS : Int := 60000

/-- `Math.min(...list)` over a list of timestamps (the denial branch only
evaluates it on a non-empty list). -/
def listMin : List Int → Int
  | [] => 0
  | x :: xs => xs.foldl min x

/-- `canTap` of `src/App.js` lines 98-113: prune the tap window to
timestamps within `WINDOW_MS` of `now`; if at least `MAX_PER_MINUTE`
remain, deny without recording the attempt and report
`retryAt = oldest + WINDOW_MS`; otherwise record `now` and allow.
Result: (allowed, the window after the call, the `limitUntil` value set on
denial). -/
def canTap (now : Int) (taps : List Int) : Bool × List Int × Option Int :=
  let pruned := taps.filter fun t => now - t < WINDOW_MS
  if MAX_PER_MINUTE ≤ pruned.length then
    (false, pruned, some (listMin pruned + WINDOW_MS))
  else
    (true, pruned ++ [now], none)

/-- The mutable state of the `App` component of the rate-limited variant that the
pipeline touches: the cache, the tap window `tapsRef.current`, `limitUntil`
and the displayed `fact`. -/
structure AppState where
  cache : CacheState
  taps : List Int
  limitUntil : Option Int
  fact : String
  deriving Repr, DecidableEq

/-- The initial-load effect of `src/App.js` lines 130-144: a direct
`fetchWithRetry` (result `direct`), the fallback corpus if that is null,
`setFact`, then `primeCache` — it never consults `canTap`, `tapsRef` or
`limitUntil`. -/
def initialLoad (direct : Option String) (r : ℚ) (rs : List (Option String))
    (s : AppState) : AppState :=
  { s with fact := directOrFallback direct r, cache := primeCacheGo rs s.cache }

/-- A background `primeCache` run at the `App` level. -/
def primeCacheApp (rs : List (Option String)) (s : AppState) : AppState :=
  { s with cache := primeCacheGo rs s.cache }

/-- `getNextFact` at the `App` level: publishes the fact and updates the
cache; it never touches `tapsRef` or `limitUntil`. -/
def getNextFactApp (direct : Option String) (r : ℚ) (rs : List (Option String))
    (s : AppState) : AppState :=
  { s with fact := (getNextFact s.cache direct r rs).1,
           cache := (getNextFact s.cache direct r rs).2.2 }

/-- Whether `limitUntil && Date.now() < limitUntil` holds (`src/App.js`
line 148). -/
def limitActive (now : Int) : Option Int → Bool
  | some u => now < u
  | none => false

/-- `handlePress` of `src/App.js` lines 146-154 (with the presentation-only
`busy` and popup flags dropped): while the limit popup window is active the
press is ignored; otherwise `canTap` gates the press, recording the tap and
fetching on allow, or pruning the window and setting `limitUntil` on deny. -/
def handlePress (now : Int) (direct : Option String) (r : ℚ)
    (rs : List (Option String)) (s : AppState) : AppState :=
  if limitActive now s.limitUntil then s
  else
    let c := canTap now s.taps
    if c.1 then getNextFactApp direct r rs { s with taps := c.2.1 }
    else { s with taps := c.2.1, limitUntil := c.2.2 }

/-! ## Retry policy: exhaustion, delays, short-circuit success -/

/-- C2: when every attempt fails, `fetchWithRetry` of `src/unnamed/part_000`
returns `null` after exactly `MAX_RETRIES + 1` = 4 attempts, while the
`fetchWithRetry` of `src/App.js` / `src/unnamed/part_001` returns `null`
after exactly 3 attempts. -/
theorem retryExhaustCounts (oracle : Nat → Option String) (rand : Nat → ℚ)
    (h : ∀ n, attemptOk (oracle n) = none) :
    (p0FetchWithRetry oracle rand).1 = none
    ∧ (p0FetchWithRetry oracle rand).2.1 = MAX_RETRIES + 1
    ∧ (appFetchWithRetry oracle).1 = none
    ∧ (appFetchWithRetry oracle).2.1 = 3 := by
  refine ⟨?_, ?_, ?_, ?_⟩ <;>
    simp [p0FetchWithRetry, appFetchWithRetry, p0RetryAux, appRetryAux, h, MAX_RETRIES]

/-- C2 witness: the exhaustion counts at the concrete always-failing oracle. -/
theorem retryExhaustCountsWitness :
    (p0FetchWithRetry (fun _ => none) (fun _ => 0)).2.1 = MAX_RETRIES + 1 ∧
    (appFetchWithRetry (fun _ => none)).2.1 = 3 := by
  have h := retryExhaustCounts (fun _ => none) (fun _ => 0) (fun _ => rfl)
  exact ⟨h.2.1, h.2.2.2⟩

/-- C2 counterexample: `fetchWithRetry` of `src/App.js`, with every attempt
failing, performs 3 fetch attempts, not 4 (`maxAttempts + 1` under the
claimed tuning of 3 retries). -/
theorem retryAppThreeAttempts :
    (appFetchWithRetry (fun _ => none)).2.1 = 3 ∧
    (appFetchWithRetry (fun _ => none)).2.1 ≠ 3 + 1 := by decide

/-- C3: delays under exhaustion.  In `src/unnamed/part_000` the i-th wait is
`max 100 (base + base * (rand i * 2 * JITTER - JITTER))` with
`base = BASE_DELAY_MS * 2 ^ i`, and there are `MAX_RETRIES` waits for
`MAX_RETRIES + 1` attempts: none after the final failure.  In `src/App.js` /
`src/unnamed/part_001` the waits are the unjittered 400, 800, 1600 — one
after every failure, the final one included. -/
theorem retryExhaustDelays (oracle : Nat → Option String) (rand : Nat → ℚ)
    (h : ∀ n, attemptOk (oracle n) = none) :
    (p0FetchWithRetry oracle rand).2.2 = [p0delay rand 0, p0delay rand 1, p0delay rand 2]
    ∧ (∀ a, p0delay rand a =
        max 100 (BASE_DELAY_MS * 2 ^ a
          + BASE_DELAY_MS * 2 ^ a * (rand a * 2 * JITTER - JITTER)))
    ∧ (p0FetchWithRetry oracle rand).2.2.length + 1 = (p0FetchWithRetry oracle rand).2.1
    ∧ (appFetchWithRetry oracle).2.2 = [400, 800, 1600]
    ∧ (appFetchWithRetry oracle).2.2.length = (appFetchWithRetry oracle).2.1 := by
  refine ⟨?_, fun a => rfl, ?_, ?_, ?_⟩ <;>
    simp [p0FetchWithRetry, appFetchWithRetry, p0RetryAux, appRetryAux, h, MAX_RETRIES]

/-- C3 witness: the delay list at the concrete always-failing oracle with
all `Math.random()` draws equal to 0 (full negative jitter: 300, 600, 1200). -/
theorem retryExhaustDelaysWitness :
    (p0FetchWithRetry (fun _ => none) (fun _ => 0)).2.2 = [300, 600, 1200] := by
  have h := retryExhaustDelays (fun _ => none) (fun _ => 0) (fun _ => rfl)
  rw [h.1]
  norm_num [p0delay, BASE_DELAY_MS, JITTER, max_def]

/-- C3 counterexample: in `src/App.js`, with every attempt failing, the
number of sleeps equals the number of attempts — a wait does occur after the
final failed attempt, and the delays carry no jitter and no 100 ms floor
logic. -/
theorem retryAppSleepsAfterFinal :
    (appFetchWithRetry (fun _ => none)).2.2.length = (appFetchWithRetry (fun _ => none)).2.1
    ∧ ¬ (appFetchWithRetry (fun _ => none)).2.2.length
        < (appFetchWithRetry (fun _ => none)).2.1 := by decide

/-- C8: if attempts `0..k-1` fail and attempt `k` extracts a non-empty text
`t`, `fetchWithRetry` of `src/unnamed/part_000` returns `t` unchanged after
exactly `k + 1` attempts (short-circuiting the rest), and the
`fetchWithRetry` of `src/App.js` / `src/unnamed/part_001` (whose loop allows
`k < 3`) returns `jsToLower t` after exactly `k + 1` attempts. -/
theorem retrySuccessShortCircuit (oracle : Nat → Option String) (rand : Nat → ℚ)
    (k : Nat) (t : String) (hk : k ≤ MAX_RETRIES)
    (hfail : ∀ i, i < k → attemptOk (oracle i) = none)
    (hsucc : attemptOk (oracle k) = some t) :
    (p0FetchWithRetry oracle rand).1 = some t
    ∧ (p0FetchWithRetry oracle rand).2.1 = k + 1
    ∧ (k < 3 → (appFetchWithRetry oracle).1 = some (jsToLower t)
        ∧ (appFetchWithRetry oracle).2.1 = k + 1) := by
  rw [MAX_RETRIES] at hk
  interval_cases k <;>
    refine ⟨?_, ?_, ?_⟩ <;>
      simp [p0FetchWithRetry, appFetchWithRetry, p0RetryAux, appRetryAux, hsucc,
        MAX_RETRIES, hfail 0, hfail 1, hfail 2]

/-- C8 witness: success on the second attempt after one failure. -/
theorem retrySuccessShortCircuitWitness :
    (p0FetchWithRetry (fun n => if n = 1 then some "Honey" else none) (fun _ => 0)).1
      = some "Honey"
    ∧ (appFetchWithRetry (fun n => if n = 1 then some "Honey" else none)).1
      = some "honey" := by
  have h := retrySuccessShortCircuit (fun n => if n = 1 then some "Honey" else none)
    (fun _ => 0) 1 "Honey" (by decide)
    (by intro i hi; interval_cases i; rfl) (by rfl)
  exact ⟨h.1, (h.2.2 (by decide)).1⟩

/-- C8 counterexample: `fetchWithRetry` of `src/unnamed/part_000` returns a
successful text as-is, not normalized to lowercase. -/
theorem retryP0NoLowercase :
    (p0FetchWithRetry (fun _ => some "Honey never spoils.") (fun _ => 0)).1
      = some "Honey never spoils."
    ∧ (p0FetchWithRetry (fun _ => some "Honey never spoils.") (fun _ => 0)).1
      ≠ some (jsToLower "Honey never spoils.") := by decide

/-! ## Rate limiter -/

/-- A left fold of `min` lands on the seed or on a member of the list. -/
lemma foldlMin_mem : ∀ (xs : List Int) (x : Int), xs.foldl min x ∈ x :: xs := by
  intro xs
  induction xs with
  | nil => intro x; simp
  | cons y ys ih =>
    intro x
    rcases List.mem_cons.1 (ih (min x y)) with h | h
    · rw [List.foldl_cons, h]
      rcases min_choice x y with hc | hc
      · rw [hc]; exact List.mem_cons_self _ _
      · rw [hc]; exact List.mem_cons_of_mem _ (List.mem_cons_self _ _)
    · rw [List.foldl_cons]
      exact List.mem_cons_of_mem _ (List.mem_cons_of_mem _ h)

/-- A left fold of `min` is a lower bound of the seed and the list. -/
lemma foldlMin_le : ∀ (xs : List Int) (x t : Int), t ∈ x :: xs → xs.foldl min x ≤ t := by
  intro xs
  induction xs with
  | nil =>
    intro x t ht
    rcases List.mem_cons.1 ht with heq | ht
    · rw [heq]; simp
    · simp at ht
  | cons y ys ih =>
    intro x t ht
    simp only [List.foldl_cons]
    have hle : List.foldl min (min x y) ys ≤ min x y :=
      ih (min x y) (min x y) (List.mem_cons_self _ _)
    rcases List.mem_cons.1 ht with heq | ht
    · rw [heq]
      exact le_trans hle (min_le_left x y)
    rcases List.mem_cons.1 ht with heq | ht
    · rw [heq]
      exact le_trans hle (min_le_right x y)
    · exact ih (min x y) t (List.mem_cons_of_mem _ ht)

/-- On a non-empty list, `listMin` is the least member. -/
lemma listMin_spec (x : Int) (xs : List Int) :
    listMin (x :: xs) ∈ x :: xs ∧ ∀ t ∈ x :: xs, listMin (x :: xs) ≤ t :=
  ⟨foldlMin_mem xs x, fun t ht => foldlMin_le xs x t ht⟩

/-- The denial branch of `canTap`. -/
lemma canTap_denied (now : Int) (taps : List Int)
    (hc : MAX_PER_MINUTE ≤ (taps.filter fun t => now - t < WINDOW_MS).length) :
    canTap now taps = (false, taps.filter fun t => now - t < WINDOW_MS,
      some (listMin (taps.filter fun t => now - t < WINDOW_MS) + WINDOW_MS)) := by
  simp [canTap, hc]

/-- The allow branch of `canTap`. -/
lemma canTap_allowed (now : Int) (taps : List Int)
    (hc : ¬ MAX_PER_MINUTE ≤ (taps.filter fun t => now - t < WINDOW_MS).length) :
    canTap now taps = (true, (taps.filter fun t => now - t < WINDOW_MS) ++ [now], none) := by
  simp [canTap, hc]

/-- C4: `canTap` first prunes the window to timestamps within `WINDOW_MS` of
`now`; it allows exactly when fewer than `MAX_PER_MINUTE` remain, in which
case `now` is appended and the window stays within the bound; on denial the
attempt is not recorded and `limitUntil` becomes the oldest retained
timestamp plus `WINDOW_MS`; in either case every retained timestamp lies
within the trailing window. -/
theorem canTapSpec (now : Int) (taps : List Int) :
    (∀ t ∈ (canTap now taps).2.1, now - t < WINDOW_MS)
    ∧ ((canTap now taps).1 = true ↔
        (taps.filter fun t => now - t < WINDOW_MS).length < MAX_PER_MINUTE)
    ∧ ((canTap now taps).1 = true →
        (canTap now taps).2.1 = (taps.filter fun t => now - t < WINDOW_MS) ++ [now]
        ∧ (canTap now taps).2.1.length ≤ MAX_PER_MINUTE
        ∧ (canTap now taps).2.2 = none)
    ∧ ((canTap now taps).1 = false →
        (canTap now taps).2.1 = (taps.filter fun t => now - t < WINDOW_MS)
        ∧ (canTap now taps).2.2 = some (listMin (canTap now taps).2.1 + WINDOW_MS)
        ∧ listMin (canTap now taps).2.1 ∈ (canTap now taps).2.1
        ∧ ∀ t ∈ (canTap now taps).2.1, listMin (canTap now taps).2.1 ≤ t) := by
  have hmem : ∀ t ∈ taps.filter (fun t => now - t < WINDOW_MS), now - t < WINDOW_MS := by
    intro t ht
    simpa using (List.mem_filter.1 ht).2
  by_cases hc : MAX_PER_MINUTE ≤ (taps.filter fun t => now - t < WINDOW_MS).length
  · have h1 := canTap_denied now taps hc
    have hne : (taps.filter fun t => now - t < WINDOW_MS) ≠ [] := by
      intro h0
      rw [h0] at hc
      simp [MAX_PER_MINUTE] at hc
    obtain ⟨x, xs, hxx⟩ := List.exists_cons_of_ne_nil hne
    have hmin := listMin_spec x xs
    rw [← hxx] at hmin
    refine ⟨?_, ?_, ?_, ?_⟩
    · rw [h1]; exact hmem
    · rw [h1]; simp; omega
    · rw [h1]; simp
    · rw [h1]
      exact fun _ => ⟨rfl, rfl, hmin.1, hmin.2⟩
  · have h1 := canTap_allowed now taps hc
    refine ⟨?_, ?_, ?_, ?_⟩
    · rw [h1]
      intro t ht
      rcases List.mem_append.1 ht with h | h
      · exact hmem t h
      · have : t = now := by simpa using h
        subst this
        simp [WINDOW_MS]
    · rw [h1]; simp; omega
    · rw [h1]
      refine fun _ => ⟨rfl, ?_, rfl⟩
      simp only [List.length_append, List.length_singleton]
      omega
    · rw [h1]; simp

/-! ## Cache: refill and invariants -/

/-- A refill never removes anything from the seen-set. -/
lemma primeCacheGo_seen_sub (rs : List (Option String)) :
    ∀ s : CacheState, s.seen ⊆ (primeCacheGo rs s).seen := by
  induction rs with
  | nil => intro s; simp [primeCacheGo]
  | cons r rs ih =>
    intro s
    cases r with
    | none =>
      rw [primeCacheGo]
      split <;> exact fun a ha => ha
    | some f =>
      rw [primeCacheGo]
      split
      · split
        · exact ih s
        · intro a ha
          exact ih _ (List.mem_cons_of_mem f ha)
      · exact fun a ha => ha

/-- A refill never shrinks the seen-set. -/
lemma primeCacheGo_seen_len (rs : List (Option String)) :
    ∀ s : CacheState, s.seen.length ≤ (primeCacheGo rs s).seen.length := by
  induction rs with
  | nil => intro s; simp [primeCacheGo]
  | cons r rs ih =>
    intro s
    cases r with
    | none =>
      rw [primeCacheGo]
      split <;> exact le_rfl
    | some f =>
      rw [primeCacheGo]
      split
      · split
        · exact ih s
        · calc s.seen.length ≤ (f :: s.seen).length := by simp
            _ ≤ _ := ih ⟨s.queue ++ [f], f :: s.seen⟩
      · exact le_rfl

/-- A refill preserves "queue entries are seen" and queue distinctness. -/
lemma primeCacheGo_inv (rs : List (Option String)) :
    ∀ s : CacheState, (∀ f ∈ s.queue, f ∈ s.seen) → s.queue.Nodup →
      (∀ f ∈ (primeCacheGo rs s).queue, f ∈ (primeCacheGo rs s).seen)
      ∧ (primeCacheGo rs s).queue.Nodup := by
  induction rs with
  | nil => intro s h1 h2; simpa [primeCacheGo] using ⟨h1, h2⟩
  | cons r rs ih =>
    intro s h1 h2
    cases r with
    | none =>
      rw [primeCacheGo]
      split <;> exact ⟨h1, h2⟩
    | some f =>
      rw [primeCacheGo]
      split
      · split
        · exact ih s h1 h2
        · rename_i hf
          apply ih ⟨s.queue ++ [f], f :: s.seen⟩
          · intro g hg
            rcases List.mem_append.1 hg with hg | hg
            · exact List.mem_cons_of_mem f (h1 g hg)
            · have : g = f := by simpa using hg
              rw [this]
              exact List.mem_cons_self _ _
          · have hfq : f ∉ s.queue := fun hmem => hf (h1 f hmem)
            simp [List.nodup_append, h2, hfq]
      · exact ⟨h1, h2⟩

/-- The cache after `getNextFact`: the queue is shifted once, then the
background refill runs. -/
lemma getNextFact_state (s : CacheState) (d : Option String) (r : ℚ)
    (rs : List (Option String)) :
    (getNextFact s d r rs).2.2 = primeCacheGo rs ⟨s.queue.tail, s.seen⟩ := by
  rcases s with ⟨q, seen⟩
  cases q with
  | nil => rfl
  | cons f rest => by_cases hf : f = "" <;> simp [getNextFact, hf]

/-- Every operation preserves the cache invariant. -/
lemma applyOp_inv (s : CacheState) (op : CacheOp)
    (h1 : ∀ f ∈ s.queue, f ∈ s.seen) (h2 : s.queue.Nodup) :
    (∀ f ∈ (applyOp s op).queue, f ∈ (applyOp s op).seen) ∧ (applyOp s op).queue.Nodup := by
  cases op with
  | refill rs => exact primeCacheGo_inv rs s h1 h2
  | getNext d r rs =>
    rw [applyOp, getNextFact_state]
    apply primeCacheGo_inv
    · intro f hf
      exact h1 f (List.mem_of_mem_tail hf)
    · exact List.Nodup.sublist (List.tail_sublist _) h2

/-- No operation removes from or shrinks the seen-set. -/
lemma applyOp_seen (s : CacheState) (op : CacheOp) :
    s.seen ⊆ (applyOp s op).seen ∧ s.seen.length ≤ (applyOp s op).seen.length := by
  cases op with
  | refill rs => exact ⟨primeCacheGo_seen_sub rs s, primeCacheGo_seen_len rs s⟩
  | getNext d r rs =>
    rw [applyOp, getNextFact_state]
    exact ⟨primeCacheGo_seen_sub rs ⟨s.queue.tail, s.seen⟩,
      primeCacheGo_seen_len rs ⟨s.queue.tail, s.seen⟩⟩

/-- The cache invariant holds along any run from the initial state. -/
lemma foldl_inv : ∀ (ops : List CacheOp) (s : CacheState),
    (∀ f ∈ s.queue, f ∈ s.seen) → s.queue.Nodup →
    (∀ f ∈ (ops.foldl applyOp s).queue, f ∈ (ops.foldl applyOp s).seen)
    ∧ (ops.foldl applyOp s).queue.Nodup := by
  intro ops
  induction ops with
  | nil => intro s h1 h2; exact ⟨h1, h2⟩
  | cons op ops ih =>
    intro s h1 h2
    have h := applyOp_inv s op h1 h2
    simpa using ih (applyOp s op) h.1 h.2

/-- C5: after any sequence of refill / consume operations, every queued fact
is in the seen-set and the queue holds no two identical texts; and every
single operation keeps the whole seen-set (it is never cleared) and never
shrinks it. -/
theorem cacheInvariants (ops : List CacheOp) :
    (∀ f ∈ (runOps ops).queue, f ∈ (runOps ops).seen)
    ∧ (runOps ops).queue.Nodup
    ∧ ∀ (s : CacheState) (op : CacheOp),
        s.seen ⊆ (applyOp s op).seen ∧ s.seen.length ≤ (applyOp s op).seen.length := by
  have h := foldl_inv ops initialCache (by simp [initialCache]) (by simp [initialCache])
  exact ⟨h.1, h.2, fun s op => applyOp_seen s op⟩

/-- A refill keeps the queue within the target size. -/
lemma primeCacheGo_len_le (rs : List (Option String)) :
    ∀ s : CacheState, s.queue.length ≤ CACHE_TARGET_SIZE →
      (primeCacheGo rs s).queue.length ≤ CACHE_TARGET_SIZE := by
  induction rs with
  | nil => intro s h; simpa [primeCacheGo] using h
  | cons r rs ih =>
    intro s h
    cases r with
    | none =>
      rw [primeCacheGo]
      split <;> exact h
    | some f =>
      rw [primeCacheGo]
      split
      · split
        · exact ih s h
        · rename_i hlt _
          apply ih
          simp only [List.length_append, List.length_singleton]
          omega
      · exact h

/-- C6: the refill loop checks the target bound before each fetch and stops
there; a `null` fetch result stops it early; a fact already seen is dropped
silently — the loop moves on to the next fetch without enqueuing it — and a
fresh fact is pushed to the queue and the seen-set; starting at or below the
target, the queue never exceeds the target. -/
theorem primeCacheSpec (s : CacheState) (f : String) (rs : List (Option String)) :
    (CACHE_TARGET_SIZE ≤ s.queue.length → primeCacheGo rs s = s)
    ∧ (s.queue.length < CACHE_TARGET_SIZE → primeCacheGo (none :: rs) s = s)
    ∧ (s.queue.length < CACHE_TARGET_SIZE → f ∈ s.seen →
        primeCacheGo (some f :: rs) s = primeCacheGo rs s)
    ∧ (s.queue.length < CACHE_TARGET_SIZE → f ∉ s.seen →
        primeCacheGo (some f :: rs) s = primeCacheGo rs ⟨s.queue ++ [f], f :: s.seen⟩)
    ∧ (s.queue.length ≤ CACHE_TARGET_SIZE →
        (primeCacheGo rs s).queue.length ≤ CACHE_TARGET_SIZE) := by
  refine ⟨?_, ?_, ?_, ?_, fun h => primeCacheGo_len_le rs s h⟩
  · intro h
    cases rs with
    | nil => rfl
    | cons r rs =>
      cases r with
      | none => rw [primeCacheGo, if_neg (by omega)]
      | some g => rw [primeCacheGo, if_neg (by omega)]
  · intro h
    rw [primeCacheGo, if_pos h]
  · intro h hf
    rw [primeCacheGo, if_pos h]
    simp [hf]
  · intro h hf
    rw [primeCacheGo, if_pos h]
    simp [hf]

/-! ## getNextFact: fallback chain, cache hits, seen-set frame -/

/-- Every lowercased fallback entry is a non-empty string. -/
lemma fallbackLower_ne : ∀ x ∈ FALLBACK.map jsToLower, x ≠ "" := by decide

/-- With `Math.random()` in `[0, 1)`, the fallback draw picks a member of the
lowercased corpus. -/
lemma fallbackPick_mem (r : ℚ) (h0 : 0 ≤ r) (h1 : r < 1) :
    fallbackPick r ∈ FALLBACK.map jsToLower := by
  have hlen : ((FALLBACK.length : ℕ) : ℚ) = 5 := by norm_num [FALLBACK]
  have hnn : (0 : ℤ) ≤ ⌊r * (FALLBACK.length : ℚ)⌋ := by
    apply Int.floor_nonneg.2
    exact mul_nonneg h0 (by positivity)
  have hlt : ⌊r * (FALLBACK.length : ℚ)⌋ < (5 : ℤ) := by
    apply Int.floor_lt.2
    rw [hlen]
    push_cast
    linarith
  have hn : (⌊r * (FALLBACK.length : ℚ)⌋).toNat < 5 := by omega
  simp only [fallbackPick]
  revert hn
  generalize (⌊r * (FALLBACK.length : ℚ)⌋).toNat = n
  intro hn
  interval_cases n <;> decide

/-- The fallback draw never produces the empty string. -/
lemma fallbackPick_ne (r : ℚ) (h0 : 0 ≤ r) (h1 : r < 1) : fallbackPick r ≠ "" :=
  fallbackLower_ne _ (fallbackPick_mem r h0 h1)

/-- The direct-fetch-then-fallback tail of `getNextFact`: it never yields the
empty string, passes a non-empty direct result through, and falls back on a
null (or empty) direct result. -/
lemma directOrFallback_spec (d : Option String) (r : ℚ) (h0 : 0 ≤ r) (h1 : r < 1) :
    directOrFallback d r ≠ ""
    ∧ (∀ t, d = some t → t ≠ "" → directOrFallback d r = t)
    ∧ ((d = none ∨ d = some "") → directOrFallback d r = fallbackPick r) := by
  cases d with
  | none =>
    refine ⟨fallbackPick_ne r h0 h1, ?_, fun _ => rfl⟩
    intro t ht
    exact absurd ht (by simp)
  | some t =>
    by_cases ht : t = ""
    · subst ht
      refine ⟨?_, ?_, ?_⟩
      · simpa [directOrFallback] using fallbackPick_ne r h0 h1
      · intro u hu hne
        injection hu with hu
        exact absurd hu.symm hne
      · intro _
        simp [directOrFallback]
    · refine ⟨?_, ?_, ?_⟩
      · simp [directOrFallback, ht]
      · intro u hu hne
        injection hu with hu
        rw [← hu]
        simp [directOrFallback, ht]
      · intro h
        rcases h with h | h
        · exact absurd h (by simp)
        · injection h with h
          exact absurd h ht

/-- C1: the three-tier chain of `getNextFact` under the `Math.random()`
contract `0 ≤ r < 1`.  The published fact is never empty; a non-empty cache
head is published as-is; with an exhausted cache a non-empty direct fetch
result is published; with the direct fetch also exhausted a member of the
non-empty lowercased fallback corpus is published.  The embedding is a total
function, so no network failure reaches the caller. -/
theorem getNextFactTotal (s : CacheState) (d : Option String) (r : ℚ)
    (rs : List (Option String)) (h0 : 0 ≤ r) (h1 : r < 1) :
    (getNextFact s d r rs).1 ≠ ""
    ∧ (∀ f rest, s.queue = f :: rest → f ≠ "" → (getNextFact s d r rs).1 = f)
    ∧ (∀ t, (s.queue = [] ∨ ∃ rest, s.queue = "" :: rest) → d = some t → t ≠ "" →
        (getNextFact s d r rs).1 = t)
    ∧ ((s.queue = [] ∨ ∃ rest, s.queue = "" :: rest) → (d = none ∨ d = some "") →
        (getNextFact s d r rs).1 = fallbackPick r
        ∧ (getNextFact s d r rs).1 ∈ FALLBACK.map jsToLower)
    ∧ FALLBACK ≠ [] := by
  obtain ⟨hne, hdir, hfb⟩ := directOrFallback_spec d r h0 h1
  rcases s with ⟨q, seen⟩
  cases q with
  | nil =>
    have hval : (getNextFact ⟨[], seen⟩ d r rs).1 = directOrFallback d r := rfl
    refine ⟨by rw [hval]; exact hne, ?_, ?_, ?_, by simp [FALLBACK]⟩
    · intro f rest hq
      exact absurd hq (by simp)
    · intro t _ hd hnt
      rw [hval]
      exact hdir t hd hnt
    · intro _ hd
      rw [hval, hfb hd]
      exact ⟨rfl, fallbackPick_mem r h0 h1⟩
  | cons f rest =>
    by_cases hf : f = ""
    · subst hf
      have hval : (getNextFact ⟨"" :: rest, seen⟩ d r rs).1 = directOrFallback d r := by
        simp [getNextFact]
      refine ⟨by rw [hval]; exact hne, ?_, ?_, ?_, by simp [FALLBACK]⟩
      · intro g grest hq hg
        injection hq with hq1
        exact absurd hq1.symm hg
      · intro t _ hd hnt
        rw [hval]
        exact hdir t hd hnt
      · intro _ hd
        rw [hval, hfb hd]
        exact ⟨rfl, fallbackPick_mem r h0 h1⟩
    · have hval : (getNextFact ⟨f :: rest, seen⟩ d r rs).1 = f := by
        simp [getNextFact, hf]
      refine ⟨by rw [hval]; exact hf, ?_, ?_, ?_, by simp [FALLBACK]⟩
      · intro g grest hq _
        injection hq with hq1
        rw [hval, hq1]
      · intro t hq _ _
        rcases hq with hq | ⟨rest2, hq⟩
        · exact absurd hq (by simp)
        · injection hq with hq1
          exact absurd hq1 hf
      · intro hq _
        rcases hq with hq | ⟨rest2, hq⟩
        · exact absurd hq (by simp)
        · injection hq with hq1
          exact absurd hq1 hf

/-- C1 witness: empty cache, failed direct fetch, draw one half. -/
theorem getNextFactTotalWitness :
    (getNextFact ⟨[], []⟩ none (1 / 2) []).1 ≠ "" := by
  have h := getNextFactTotal ⟨[], []⟩ none (1 / 2) [] (by norm_num) (by norm_num)
  exact h.1

/-- C7: with a non-empty cache head, `getNextFact` publishes exactly that
head (the oldest queued entry), makes no network call for the displayed fact
(the flag is false and the displayed fact is independent of the direct-fetch
oracle), and the only further activity is the background refill on the
shifted queue. -/
theorem cacheHitNoNetwork (f : String) (rest seen : List String)
    (d d2 : Option String) (r r2 : ℚ) (rs : List (Option String)) (h : f ≠ "") :
    (getNextFact ⟨f :: rest, seen⟩ d r rs).1 = f
    ∧ (getNextFact ⟨f :: rest, seen⟩ d r rs).2.1 = false
    ∧ (getNextFact ⟨f :: rest, seen⟩ d r rs).1 = (getNextFact ⟨f :: rest, seen⟩ d2 r2 rs).1
    ∧ (getNextFact ⟨f :: rest, seen⟩ d r rs).2.2 = primeCacheGo rs ⟨rest, seen⟩ := by
  simp [getNextFact, h]

/-- C7 witness: the scenario of the spec, cache pre-populated with fact-a, fact-b. -/
theorem cacheHitNoNetworkWitness :
    (getNextFact ⟨["fact-a", "fact-b"], []⟩ none 0 []).1 = "fact-a"
    ∧ (getNextFact ⟨["fact-a", "fact-b"], []⟩ none 0 []).2.1 = false := by
  have h := cacheHitNoNetwork "fact-a" ["fact-b"] [] none none 0 0 [] (by decide)
  exact ⟨h.1, h.2.1⟩

/-- C10: `getNextFact` itself never adds to the seen-set — with an empty
queue (direct-fetch or fallback path) the seen-set is returned unchanged —
so a fact `"x"` displayed through the direct path can be fetched again by a
later refill, enter the cache, and be displayed a second time. -/
theorem seenOnlyOnRefill (s : CacheState) (d : Option String) (r : ℚ) :
    (s.queue = [] → ((getNextFact s d r []).2.2).seen = s.seen)
    ∧ (getNextFact ⟨[], []⟩ (some "x") r []).1 = "x"
    ∧ (getNextFact ⟨[], []⟩ (some "x") r []).2.2 = ⟨[], []⟩
    ∧ primeCacheGo [some "x"] ⟨[], []⟩ = ⟨["x"], ["x"]⟩
    ∧ (getNextFact ⟨["x"], ["x"]⟩ none r []).1 = "x" := by
  refine ⟨?_, ?_, ?_, ?_, ?_⟩
  · intro hq
    rw [getNextFact_state, hq]
    rfl
  · simp [getNextFact, directOrFallback]
  · rfl
  · rfl
  · simp [getNextFact]

/-! ## Rate-limited variant: frame of the tap window -/

/-- C9: the initial load and background refills leave the tap window (and
`limitUntil`) untouched, and the initial load publishes its fact for every
limiter state — its outcome does not depend on the window or on
`limitUntil`, so it fires regardless of the limiter.  `getNextFact` itself
never touches the window; the only appends happen inside the user-tap
handler through `canTap`, which either leaves the window pruned (denial) or
pruned plus the new tap (allow). -/
theorem rateWindowFrame (d : Option String) (r : ℚ) (rs : List (Option String))
    (s : AppState) (now : Int) (taps2 : List Int) (lim2 : Option Int) :
    (initialLoad d r rs s).taps = s.taps
    ∧ (initialLoad d r rs s).limitUntil = s.limitUntil
    ∧ (initialLoad d r rs s).fact = directOrFallback d r
    ∧ (initialLoad d r rs { s with taps := taps2, limitUntil := lim2 }).fact
        = (initialLoad d r rs s).fact
    ∧ (primeCacheApp rs s).taps = s.taps
    ∧ (primeCacheApp rs s).limitUntil = s.limitUntil
    ∧ (getNextFactApp d r rs s).taps = s.taps
    ∧ ((handlePress now d r rs s).taps = s.taps
       ∨ (handlePress now d r rs s).taps = s.taps.filter (fun t => now - t < WINDOW_MS)
       ∨ (handlePress now d r rs s).taps
           = s.taps.filter (fun t => now - t < WINDOW_MS) ++ [now])
    ∧ (limitActive now s.limitUntil = false → (canTap now s.taps).1 = true →
        handlePress now d r rs s
          = getNextFactApp d r rs { s with taps := (canTap now s.taps).2.1 }) := by
  refine ⟨rfl, rfl, rfl, rfl, rfl, rfl, rfl, ?_, ?_⟩
  · by_cases hl : limitActive now s.limitUntil
    · left
      simp [handlePress, hl]
    · by_cases hc : MAX_PER_MINUTE ≤ (s.taps.filter fun t => now - t < WINDOW_MS).length
      · right; left
        simp [handlePress, hl, canTap_denied now s.taps hc, getNextFactApp]
      · right; right
        simp [handlePress, hl, canTap_allowed now s.taps hc, getNextFactApp]
  · intro hl hc
    simp [handlePress, hl, hc]

end FunFacts
